import Mathlib

/-!
Verification of the association-rules mining pipeline.

The pipeline reads raw (transaction id, item name, reference code) records,
groups them into transactions, mines frequent itemsets (Apriori) and
association rules, annotates each rule with reference-code information and a
derived 8-digit identifier, exports a rule table and builds a rule graph with
normalized node sizes.  The definitions below embed each stage; the theorems
settle the specified properties.
-/

namespace AssocRules

/-! ## Frequent itemset mining

The source delegates mining to a library (`apriori`, called with
`min_support = 0.001` and `use_colnames = True`).  Modelled from the spec:
level-wise candidate generation starting from frequent single items, extending
frequent itemsets by one item at a time, pruning candidates with a
non-frequent sub-itemset, and keeping a candidate when its support (fraction
of transactions containing all its items) reaches the threshold. -/

/-- Support of an itemset: the fraction of transactions containing all of the
itemset's items. -/
def support (T : List (Finset ℕ)) (I : Finset ℕ) : ℚ :=
  ((T.countP fun t => decide (I ⊆ t) : ℕ) : ℚ) / (T.length : ℚ)

/-- The universe of items: every item occurring in some transaction. -/
def itemUniverse (T : List (Finset ℕ)) : Finset ℕ :=
  T.foldr (fun t acc => t ∪ acc) ∅

/-- Level `k` of the level-wise enumeration: the frequent itemsets of
cardinality `k + 1`.  Level `0` keeps the frequent single items; level
`k + 1` extends each member of level `k` by one further item of the
universe, prunes candidates having a non-frequent sub-itemset, and keeps
candidates whose support reaches the threshold. -/
def level (T : List (Finset ℕ)) (ms : ℚ) : ℕ → Finset (Finset ℕ)
  | 0 =>
      ((itemUniverse T).image fun a => ({a} : Finset ℕ)).filter
        fun I => ms ≤ support T I
  | k + 1 =>
      let prev := level T ms k
      ((prev.biUnion fun I => ((itemUniverse T) \ I).image fun a => insert a I).filter
        fun C => (∀ a ∈ C, C.erase a ∈ prev) ∧ ms ≤ support T C)

/-- The frequent-itemset miner: the union of all levels. -/
def apriori (T : List (Finset ℕ)) (ms : ℚ) : Finset (Finset ℕ) :=
  (Finset.range (itemUniverse T).card).biUnion (level T ms)

theorem mem_itemUniverse {T : List (Finset ℕ)} {a : ℕ} :
    a ∈ itemUniverse T ↔ ∃ t ∈ T, a ∈ t := by
  induction T with
  | nil => simp [itemUniverse]
  | cons t ts ih => simp [itemUniverse, List.foldr] at ih ⊢; simp [ih]

theorem support_mono {T : List (Finset ℕ)} {I J : Finset ℕ} (h : I ⊆ J) :
    support T J ≤ support T I := by
  unfold support
  gcongr
  have : T.countP (fun t => decide (J ⊆ t)) ≤ T.countP (fun t => decide (I ⊆ t)) := by
    apply List.countP_mono_left
    intro t _ ht
    simp only [decide_eq_true_eq] at ht ⊢
    exact h.trans ht
  exact_mod_cast this

theorem support_nonneg (T : List (Finset ℕ)) (I : Finset ℕ) : 0 ≤ support T I := by
  unfold support
  positivity

theorem subset_itemUniverse_of_frequent {T : List (Finset ℕ)} {ms : ℚ}
    {I : Finset ℕ} (hms : 0 < ms) (hf : ms ≤ support T I) : I ⊆ itemUniverse T := by
  have hpos : 0 < support T I := lt_of_lt_of_le hms hf
  unfold support at hpos
  have hcount : 0 < T.countP fun t => decide (I ⊆ t) := by
    by_contra hc
    push_neg at hc
    interval_cases h : T.countP fun t => decide (I ⊆ t)
    · simp [h] at hpos
  obtain ⟨t, htT, hIt⟩ := List.countP_pos_iff.mp hcount
  simp only [decide_eq_true_eq] at hIt
  intro a ha
  exact mem_itemUniverse.mpr ⟨t, htT, hIt ha⟩

theorem mem_level {T : List (Finset ℕ)} {ms : ℚ} (hms : 0 < ms) :
    ∀ (k : ℕ) (I : Finset ℕ),
      I ∈ level T ms k ↔ I.card = k + 1 ∧ ms ≤ support T I := by
  intro k
  induction k with
  | zero =>
      intro I
      constructor
      · intro h
        simp only [level, Finset.mem_filter, Finset.mem_image] at h
        obtain ⟨⟨a, _, rfl⟩, hsup⟩ := h
        exact ⟨Finset.card_singleton a, hsup⟩
      · rintro ⟨hcard, hsup⟩
        obtain ⟨a, rfl⟩ := Finset.card_eq_one.mp hcard
        have ha : a ∈ itemUniverse T :=
          subset_itemUniverse_of_frequent hms hsup (Finset.mem_singleton_self a)
        simp only [level, Finset.mem_filter, Finset.mem_image]
        exact ⟨⟨a, ha, rfl⟩, hsup⟩
  | succ k ih =>
      intro I
      constructor
      · intro h
        simp only [level, Finset.mem_filter, Finset.mem_biUnion, Finset.mem_image,
          Finset.mem_sdiff] at h
        obtain ⟨⟨J, hJ, a, ⟨_, haJ⟩, rfl⟩, _, hsup⟩ := h
        have hJcard : J.card = k + 1 := ((ih J).mp hJ).1
        refine ⟨?_, hsup⟩
        rw [Finset.card_insert_of_not_mem haJ, hJcard]
      · rintro ⟨hcard, hsup⟩
        have hne : I.Nonempty := Finset.card_pos.mp (by omega)
        obtain ⟨a, haI⟩ := hne
        have hIU : I ⊆ itemUniverse T := subset_itemUniverse_of_frequent hms hsup
        have herase : ∀ b ∈ I, I.erase b ∈ level T ms k := by
          intro b hbI
          refine (ih _).mpr ⟨?_, ?_⟩
          · rw [Finset.card_erase_of_mem hbI, hcard]
            omega
          · exact le_trans hsup (support_mono (Finset.erase_subset b I))
        simp only [level, Finset.mem_filter, Finset.mem_biUnion, Finset.mem_image,
          Finset.mem_sdiff]
        refine ⟨⟨I.erase a, herase a haI, a, ⟨hIU haI, Finset.not_mem_erase a I⟩,
          Finset.insert_erase haI⟩, herase, hsup⟩

/-- C1.  The miner returns exactly the set of non-empty itemsets whose support
(fraction of transactions containing all of the itemset's items) is at least
`min_support`: every such itemset is present and no itemset with support below
the threshold is returned. -/
theorem apriori_exact (T : List (Finset ℕ)) (ms : ℚ) (hms : 0 < ms)
    (I : Finset ℕ) : I ∈ apriori T ms ↔ I.Nonempty ∧ ms ≤ support T I := by
  unfold apriori
  simp only [Finset.mem_biUnion, Finset.mem_range]
  constructor
  · rintro ⟨k, _, hI⟩
    obtain ⟨hcard, hsup⟩ := (mem_level hms k I).mp hI
    exact ⟨Finset.card_pos.mp (by omega), hsup⟩
  · rintro ⟨hne, hsup⟩
    have hIU : I ⊆ itemUniverse T := subset_itemUniverse_of_frequent hms hsup
    have hcard : 0 < I.card := Finset.card_pos.mpr hne
    have hle : I.card ≤ (itemUniverse T).card := Finset.card_le_card hIU
    refine ⟨I.card - 1, by omega, (mem_level hms _ I).mpr ⟨by omega, hsup⟩⟩

/-- Witness for C1 at the spec's example transaction set. -/
theorem apriori_exact_witness :
    ({1, 2} : Finset ℕ) ∈ apriori [{1, 2}, {1, 2}, {1, 3}] (3 / 10) ↔
      ({1, 2} : Finset ℕ).Nonempty ∧
        (3 / 10 : ℚ) ≤ support [{1, 2}, {1, 2}, {1, 3}] {1, 2} :=
  apriori_exact [{1, 2}, {1, 2}, {1, 3}] (3 / 10)
    (by with_unfolding_all exact of_decide_eq_true rfl) {1, 2}

/-! ## Rule generation

The source delegates rule generation to a library call
(`association_rules(frequent_itemsets, metric="confidence", min_threshold=0.15)`).
Modelled from the spec: for every frequent itemset of size at least 2,
enumerate all non-empty proper subsets `A` as antecedent with consequent the
complement, compute confidence as the support ratio, and retain the rule when
its confidence reaches the threshold. -/

/-- A mined rule: antecedent, consequent and the stored support and
confidence values. -/
structure Rule where
  antecedent : Finset ℕ
  consequent : Finset ℕ
  supp : ℚ
  conf : ℚ
deriving DecidableEq

/-- Rule generator: every bipartition of a frequent itemset of size at least
two into a non-empty antecedent and its non-empty complement, retained when
the confidence `support(itemset) / support(antecedent)` reaches the
threshold `mc`. -/
def association_rules (T : List (Finset ℕ)) (ms mc : ℚ) : Finset Rule :=
  (apriori T ms).biUnion fun F =>
    if 2 ≤ F.card then
      ((F.powerset.filter fun A => A.Nonempty ∧ A ≠ F).image fun A =>
        ⟨A, F \ A, support T F, support T F / support T A⟩).filter
        fun r => mc ≤ r.conf
    else ∅

/-- C2.  Every retained rule's confidence equals
`support(antecedent ∪ consequent) / support(antecedent)` exactly and is at
least the confidence threshold. -/
theorem association_rules_conf (T : List (Finset ℕ)) (ms mc : ℚ) (r : Rule)
    (hr : r ∈ association_rules T ms mc) :
    r.conf = support T (r.antecedent ∪ r.consequent) / support T r.antecedent ∧
      mc ≤ r.conf := by
  unfold association_rules at hr
  simp only [Finset.mem_biUnion] at hr
  obtain ⟨F, _, hrF⟩ := hr
  by_cases hF : 2 ≤ F.card
  · rw [if_pos hF] at hrF
    simp only [Finset.mem_filter, Finset.mem_image, Finset.mem_powerset] at hrF
    obtain ⟨⟨A, ⟨hAF, _, _⟩, rfl⟩, hconf⟩ := hrF
    exact ⟨by simp [Finset.union_sdiff_of_subset hAF], hconf⟩
  · rw [if_neg hF] at hrF
    exact absurd hrF (Finset.not_mem_empty r)

/-- Witness for C2 at the spec's example transaction set, for the rule
with antecedent item 1 and consequent item 2. -/
theorem association_rules_conf_witness :
    (⟨{1}, {2}, 2 / 3, 2 / 3⟩ : Rule).conf =
        support [{1, 2}, {1, 2}, {1, 3}]
            ((⟨{1}, {2}, 2 / 3, 2 / 3⟩ : Rule).antecedent ∪
              (⟨{1}, {2}, 2 / 3, 2 / 3⟩ : Rule).consequent) /
          support [{1, 2}, {1, 2}, {1, 3}]
            (⟨{1}, {2}, 2 / 3, 2 / 3⟩ : Rule).antecedent ∧
      (15 / 100 : ℚ) ≤ (⟨{1}, {2}, 2 / 3, 2 / 3⟩ : Rule).conf :=
  association_rules_conf [{1, 2}, {1, 2}, {1, 3}] (3 / 10) (15 / 100)
    ⟨{1}, {2}, 2 / 3, 2 / 3⟩ (by with_unfolding_all exact of_decide_eq_true rfl)

/-! ## List utilities: first-occurrence de-duplication and sorting

`dropDupFirst` models `drop_duplicates()` and python `set(...)` collection in
first-seen order; `sortList` is an insertion sort modelling `sorted(...)`. -/

/-- De-duplication keeping the first occurrence of each element.  The first
argument accumulates the elements already seen. -/
def dropDupFirstAux {α : Type} [DecidableEq α] : List α → List α → List α
  | _, [] => []
  | seen, x :: xs =>
      if x ∈ seen then dropDupFirstAux seen xs
      else x :: dropDupFirstAux (x :: seen) xs

/-- De-duplication keeping first occurrences, the model of
`drop_duplicates()`. -/
def dropDupFirst {α : Type} [DecidableEq α] (l : List α) : List α :=
  dropDupFirstAux [] l

/-- Insert an element into a sorted list, keeping it sorted. -/
def insertSorted {α : Type} [LinearOrder α] (a : α) : List α → List α
  | [] => [a]
  | b :: bs => if a ≤ b then a :: b :: bs else b :: insertSorted a bs

/-- Insertion sort, the model of `sorted(...)`. -/
def sortList {α : Type} [LinearOrder α] (l : List α) : List α :=
  l.foldr insertSorted []

theorem mem_dropDupFirstAux {α : Type} [DecidableEq α] {x : α} :
    ∀ {seen l : List α}, x ∈ dropDupFirstAux seen l ↔ x ∈ l ∧ x ∉ seen := by
  intro seen l
  induction l generalizing seen with
  | nil => simp [dropDupFirstAux]
  | cons y ys ih =>
      by_cases hy : y ∈ seen
      · rw [dropDupFirstAux, if_pos hy, ih]
        constructor
        · rintro ⟨h1, h2⟩; exact ⟨List.mem_cons_of_mem y h1, h2⟩
        · rintro ⟨h1, h2⟩
          rcases List.mem_cons.mp h1 with rfl | h1
          · exact absurd hy h2
          · exact ⟨h1, h2⟩
      · rw [dropDupFirstAux, if_neg hy]
        simp only [List.mem_cons, ih, List.mem_cons]
        by_cases hxy : x = y
        · subst hxy; tauto
        · constructor
          · rintro (rfl | ⟨h1, h2⟩)
            · exact ⟨Or.inl rfl, hy⟩
            · exact ⟨Or.inr h1, fun hs => h2 (Or.inr hs)⟩
          · rintro ⟨rfl | h1, h2⟩
            · exact Or.inl rfl
            · exact Or.inr ⟨h1, fun hs => hs.elim hxy h2⟩

theorem mem_dropDupFirst {α : Type} [DecidableEq α] {x : α} {l : List α} :
    x ∈ dropDupFirst l ↔ x ∈ l := by
  rw [dropDupFirst, mem_dropDupFirstAux]
  simp

theorem sublist_dropDupFirstAux {α : Type} [DecidableEq α] :
    ∀ (seen l : List α), (dropDupFirstAux seen l).Sublist l := by
  intro seen l
  induction l generalizing seen with
  | nil => simp [dropDupFirstAux]
  | cons y ys ih =>
      rw [dropDupFirstAux]
      by_cases hy : y ∈ seen
      · rw [if_pos hy]; exact (ih seen).cons y
      · rw [if_neg hy]; exact (ih (y :: seen)).cons₂ y

theorem nodup_dropDupFirstAux {α : Type} [DecidableEq α] :
    ∀ (seen l : List α), (dropDupFirstAux seen l).Nodup := by
  intro seen l
  induction l generalizing seen with
  | nil => simp [dropDupFirstAux]
  | cons y ys ih =>
      rw [dropDupFirstAux]
      by_cases hy : y ∈ seen
      · rw [if_pos hy]; exact ih seen
      · rw [if_neg hy]
        refine List.nodup_cons.mpr ⟨fun hmem => ?_, ih (y :: seen)⟩
        exact (mem_dropDupFirstAux.mp hmem).2 (List.mem_cons_self y seen)

theorem nodup_dropDupFirst {α : Type} [DecidableEq α] (l : List α) :
    (dropDupFirst l).Nodup :=
  nodup_dropDupFirstAux [] l

theorem mem_insertSorted {α : Type} [LinearOrder α] {x a : α} :
    ∀ {l : List α}, x ∈ insertSorted a l ↔ x = a ∨ x ∈ l := by
  intro l
  induction l with
  | nil => simp [insertSorted]
  | cons b bs ih =>
      rw [insertSorted]
      by_cases hab : a ≤ b
      · rw [if_pos hab]; simp
      · rw [if_neg hab]
        simp only [List.mem_cons, ih]
        tauto

theorem mem_sortList {α : Type} [LinearOrder α] {x : α} {l : List α} :
    x ∈ sortList l ↔ x ∈ l := by
  induction l with
  | nil => simp [sortList]
  | cons b bs ih =>
      rw [sortList, List.foldr_cons, mem_insertSorted]
      rw [sortList] at ih
      rw [ih]
      simp

theorem sorted_insertSorted {α : Type} [LinearOrder α] {a : α} {l : List α}
    (h : l.Sorted (· ≤ ·)) : (insertSorted a l).Sorted (· ≤ ·) := by
  induction l with
  | nil => simp [insertSorted]
  | cons b bs ih =>
      rw [insertSorted]
      by_cases hab : a ≤ b
      · rw [if_pos hab]
        refine List.sorted_cons.mpr ⟨?_, h⟩
        intro c hc
        rcases List.mem_cons.mp hc with rfl | hc
        · exact hab
        · exact le_trans hab ((List.sorted_cons.mp h).1 c hc)
      · rw [if_neg hab]
        have hbs := (List.sorted_cons.mp h).2
        refine List.sorted_cons.mpr ⟨?_, ih hbs⟩
        intro c hc
        rcases mem_insertSorted.mp hc with rfl | hc
        · exact le_of_not_le hab
        · exact (List.sorted_cons.mp h).1 c hc

theorem sorted_sortList {α : Type} [LinearOrder α] (l : List α) :
    (sortList l).Sorted (· ≤ ·) := by
  induction l with
  | nil => simp [sortList]
  | cons b bs ih => exact sorted_insertSorted ih

theorem nodup_insertSorted {α : Type} [LinearOrder α] {a : α} {l : List α}
    (ha : a ∉ l) (h : l.Nodup) : (insertSorted a l).Nodup := by
  induction l with
  | nil => simp [insertSorted]
  | cons b bs ih =>
      rw [insertSorted]
      by_cases hab : a ≤ b
      · rw [if_pos hab]; exact List.nodup_cons.mpr ⟨ha, h⟩
      · rw [if_neg hab]
        have hb := List.nodup_cons.mp h
        refine List.nodup_cons.mpr ⟨?_, ih (fun hm => ha (List.mem_cons_of_mem b hm)) hb.2⟩
        intro hm
        rcases mem_insertSorted.mp hm with rfl | hm
        · exact ha (List.mem_cons_self b bs)
        · exact hb.1 hm

theorem nodup_sortList {α : Type} [LinearOrder α] {l : List α} (h : l.Nodup) :
    (sortList l).Nodup := by
  induction l with
  | nil => simp [sortList]
  | cons b bs ih =>
      have hb := List.nodup_cons.mp h
      exact nodup_insertSorted (fun hm => hb.1 (mem_sortList.mp hm)) (ih hb.2)

/-- Two sorted duplicate-free lists with the same members are equal. -/
theorem sorted_nodup_ext {α : Type} [LinearOrder α] {l₁ l₂ : List α}
    (h₁ : l₁.Sorted (· ≤ ·)) (h₂ : l₂.Sorted (· ≤ ·)) (n₁ : l₁.Nodup)
    (n₂ : l₂.Nodup) (hmem : ∀ x, x ∈ l₁ ↔ x ∈ l₂) : l₁ = l₂ := by
  have hperm : l₁.Perm l₂ := by
    apply List.perm_of_nodup_nodup_toFinset_eq n₁ n₂
    ext x
    simp [List.mem_toFinset, hmem x]
  exact List.eq_of_perm_of_sorted hperm h₁ h₂

/-! ## Raw records, the item reference map and the transaction set

A raw input record carries a transaction id, an optional item name (missing
item names are `none`, the model of NaN cells) and a reference code
(Bestellnummer).  `item_bestell_map` embeds
`dict(zip(...))` over `df[[item_column, bestellnummer_column]].drop_duplicates()`:
pair-level de-duplication keeping first occurrences, then a dict build in
which later keys overwrite earlier ones.  `transactions` embeds the
`groupby(id_column)` (group keys sorted ascending, as pandas sorts) with the
per-group comprehension `[str(item).strip() for item in x if pd.notna(item)]`. -/

/-- A raw input record: transaction id, optional item name, reference code. -/
structure RawRecord where
  tid : ℕ
  item : Option String
  code : String
deriving DecidableEq

/-- Whitespace trimming of an item name, the model of `str.strip()`. -/
def strip (s : String) : String :=
  String.mk (((s.data.dropWhile Char.isWhitespace).reverse.dropWhile
    Char.isWhitespace).reverse)

/-- The (item name, reference code) column pair of the raw data; records with
a missing item name contribute no string key. -/
def itemCodePairs (rows : List RawRecord) : List (String × String) :=
  rows.filterMap fun r => r.item.map fun i => (i, r.code)

/-- Lookup in the dict built from an association list: later entries
overwrite earlier ones, so the last entry with the given key wins. -/
def dictLookup : List (String × String) → String → Option String
  | [], _ => none
  | p :: ps, k =>
      match dictLookup ps k with
      | some v => some v
      | none => if p.1 = k then some p.2 else none

/-- The item → reference-code map: dict over the pair-deduplicated
(item, code) columns. -/
def item_bestell_map (rows : List RawRecord) (k : String) : Option String :=
  dictLookup (dropDupFirst (itemCodePairs rows)) k

/-- The sorted list of distinct transaction ids (pandas `groupby` sorts the
group keys). -/
def tidList (rows : List RawRecord) : List ℕ :=
  sortList (dropDupFirst (rows.map fun r => r.tid))

/-- The cleaned item list of one transaction group: records with a missing
item name are dropped and the remaining names are trimmed. -/
def cleanGroup (rows : List RawRecord) (i : ℕ) : List String :=
  (rows.filter fun r => r.tid = i).filterMap fun r => r.item.map strip

/-- The transaction set handed to the encoder and miner: one cleaned item
list per transaction id. -/
def transactions (rows : List RawRecord) : List (List String) :=
  (tidList rows).map (cleanGroup rows)

theorem dictLookup_eq_none {m : List (String × String)} {k : String}
    (h : ∀ v, (k, v) ∉ m) : dictLookup m k = none := by
  induction m with
  | nil => rfl
  | cons p ps ih =>
      rw [dictLookup]
      have hps : ∀ v, (k, v) ∉ ps := fun v hv => h v (List.mem_cons_of_mem p hv)
      rw [ih hps]
      have hk : p.1 ≠ k := by
        intro hk
        exact h p.2 (by rw [← hk]; exact List.mem_cons_self p ps)
      simp [hk]

theorem dictLookup_mem {m : List (String × String)} {k v : String}
    (h : dictLookup m k = some v) : (k, v) ∈ m := by
  induction m with
  | nil => exact absurd h (by simp [dictLookup])
  | cons p ps ih =>
      rw [dictLookup] at h
      rcases hps : dictLookup ps k with _ | w
      · rw [hps] at h
        simp only at h
        by_cases hk : p.1 = k
        · rw [if_pos hk] at h
          have : p = (k, v) := by
            cases p
            simp only at hk h
            injection h with h
            rw [hk, h]
          rw [this] at *
          exact List.mem_cons_self _ _
        · rw [if_neg hk] at h
          exact absurd h (by simp)
      · rw [hps] at h
        simp only [Option.some.injEq] at h
        subst h
        exact List.mem_cons_of_mem p (ih hps)

/-- Key lemma for the reference map: in the first-occurrence-deduplicated
pair list, the dict lookup of key `k` returns the code of the pair whose
first occurrence is latest, namely the unique pair `(k, c)` such that every
`k`-pair occurring after it has already occurred before it. -/
theorem dictLookup_dropDupFirstAux {k c : String} :
    ∀ (l₁ : List (String × String)) (seen l₂ : List (String × String)),
      (k, c) ∉ seen → (k, c) ∉ l₁ →
      (∀ c', (k, c') ∈ l₂ → (k, c') ∈ seen ∨ (k, c') ∈ l₁ ∨ c' = c) →
      dictLookup (dropDupFirstAux seen (l₁ ++ (k, c) :: l₂)) k = some c := by
  intro l₁
  induction l₁ with
  | nil =>
      intro seen l₂ hseen _ hlast
      rw [List.nil_append, dropDupFirstAux, if_neg hseen, dictLookup]
      have hnone : dictLookup (dropDupFirstAux ((k, c) :: seen) l₂) k = none := by
        apply dictLookup_eq_none
        intro v hv
        obtain ⟨hvl, hvs⟩ := mem_dropDupFirstAux.mp hv
        rcases hlast v hvl with h | h | rfl
        · exact hvs (List.mem_cons_of_mem _ h)
        · exact absurd h (List.not_mem_nil _)
        · exact hvs (List.mem_cons_self _ _)
      rw [hnone]
      simp
  | cons p l₁' ih =>
      intro seen l₂ hseen hl₁ hlast
      rw [List.cons_append, dropDupFirstAux]
      have hpkc : p ≠ (k, c) := fun hp => hl₁ (by rw [← hp]; exact List.mem_cons_self p l₁')
      have hl₁' : (k, c) ∉ l₁' := fun hm => hl₁ (List.mem_cons_of_mem p hm)
      by_cases hp : p ∈ seen
      · rw [if_pos hp]
        apply ih seen l₂ hseen hl₁'
        intro c' hc'
        rcases hlast c' hc' with h | h | rfl
        · exact Or.inl h
        · rcases List.mem_cons.mp h with rfl | h
          · exact Or.inl hp
          · exact Or.inr (Or.inl h)
        · exact Or.inr (Or.inr rfl)
      · rw [if_neg hp, dictLookup]
        have hrec : dictLookup (dropDupFirstAux (p :: seen) (l₁' ++ (k, c) :: l₂)) k =
            some c := by
          apply ih (p :: seen) l₂ _ hl₁'
          · intro c' hc'
            rcases hlast c' hc' with h | h | rfl
            · exact Or.inl (List.mem_cons_of_mem p h)
            · rcases List.mem_cons.mp h with rfl | h
              · exact Or.inl (List.mem_cons_self _ _)
              · exact Or.inr (Or.inl h)
            · exact Or.inr (Or.inr rfl)
          · intro hm
            rcases List.mem_cons.mp hm with hm | hm
            · exact hpkc hm.symm
            · exact hseen hm
        rw [hrec]

/-- Counterexample to C3 as stated: the item `X` occurs with two distinct
reference codes, `c1` first and `c2` second, and the map takes the code of
the second occurrence, not of the first. -/
theorem item_bestell_map_not_first_occurrence :
    item_bestell_map [⟨1, some "X", "c1"⟩, ⟨2, some "X", "c2"⟩] "X" ≠ some "c1" ∧
      item_bestell_map [⟨1, some "X", "c1"⟩, ⟨2, some "X", "c2"⟩] "X" = some "c2" := by
  decide

/-- C3 amended.  The map takes, per item, the reference code of its
latest-first-seen distinct (item, code) pair: if `(i, c)` occurs in the raw
(item, code) columns, the given occurrence is its first, and every `i`-pair
occurring after it has already occurred before it, then the map sends `i`
to `c`.  In particular an item occurring with a single code maps to that
code. -/
theorem item_bestell_map_last_new (rows : List RawRecord) (i c : String)
    (l₁ l₂ : List (String × String))
    (hsplit : itemCodePairs rows = l₁ ++ (i, c) :: l₂)
    (hfirst : (i, c) ∉ l₁)
    (hlast : ∀ c', (i, c') ∈ l₂ → (i, c') ∈ l₁ ∨ c' = c) :
    item_bestell_map rows i = some c := by
  unfold item_bestell_map dropDupFirst
  rw [hsplit]
  apply dictLookup_dropDupFirstAux l₁ [] l₂ (List.not_mem_nil _) hfirst
  intro c' hc'
  rcases hlast c' hc' with h | h
  · exact Or.inr (Or.inl h)
  · exact Or.inr (Or.inr h)

/-- Witness for the amended C3 at the counterexample input. -/
theorem item_bestell_map_last_new_witness :
    item_bestell_map [⟨1, some "X", "c1"⟩, ⟨2, some "X", "c2"⟩] "X" = some "c2" :=
  item_bestell_map_last_new [⟨1, some "X", "c1"⟩, ⟨2, some "X", "c2"⟩] "X" "c2"
    [("X", "c1")] [] (by decide) (by decide) (by intro c' hc'; exact absurd hc' (by simp))

/-- Counterexample to C4 as stated: a transaction all of whose records have a
missing item name yields an empty cleaned item list, which is kept in the
transaction set rather than dropped. -/
theorem transactions_keeps_empty : [] ∈ transactions [⟨1, none, "c"⟩] := by
  decide

/-- C4 amended.  Every transaction id group yields one cleaned item list in
the transaction set (empty ones are retained, not dropped), and that list is
empty exactly when every record of the group has a missing item name. -/
theorem transactions_empty_iff (rows : List RawRecord) (i : ℕ)
    (hi : i ∈ tidList rows) :
    cleanGroup rows i ∈ transactions rows ∧
      (cleanGroup rows i = [] ↔ ∀ r ∈ rows, r.tid = i → r.item = none) := by
  constructor
  · exact List.mem_map.mpr ⟨i, hi, rfl⟩
  · unfold cleanGroup
    rw [List.filterMap_eq_nil_iff]
    constructor
    · intro h r hr hri
      have := h r (List.mem_filter.mpr ⟨hr, by simp [hri]⟩)
      rwa [Option.map_eq_none'] at this
    · intro h r hr
      obtain ⟨hrm, hri⟩ := List.mem_filter.mp hr
      rw [Option.map_eq_none']
      exact h r hrm (by simpa using hri)

/-- Witness for the amended C4 at the counterexample input. -/
theorem transactions_empty_iff_witness :
    cleanGroup [⟨1, none, "c"⟩] 1 ∈ transactions [⟨1, none, "c"⟩] ∧
      (cleanGroup [⟨1, none, "c"⟩] 1 = [] ↔
        ∀ r ∈ [(⟨1, none, "c"⟩ : RawRecord)], r.tid = 1 → r.item = none) :=
  transactions_empty_iff [⟨1, none, "c"⟩] 1 (by decide)

/-! ## SHA-256 and the 8-digit identifier

`create_unique_8digit_id` hashes the UTF-8 bytes of its argument with
SHA-256 (`hashlib.sha256(...).hexdigest()` parsed back with `int(..., 16)`
equals the big-endian digest integer), reduces modulo `10^8`, zero-pads to 8
digits with `zfill` and replaces the leading run of `'0'` digits by as many
`'9'` digits.  SHA-256 (FIPS 180-4) is embedded below over lists of byte
values, with 32-bit words as naturals reduced modulo `2^32`. -/

/-- Reduce to a 32-bit word. -/
def w32 (n : ℕ) : ℕ := n % 4294967296

/-- Rotation of the word `n` to the right by `k` bit positions. -/
def rotr (k n : ℕ) : ℕ := w32 ((n >>> k) ||| (n <<< (32 - k)))

/-- The sixty-four SHA-256 round constants of FIPS 180-4, written in
decimal. -/
def sha256K : List ℕ :=
  [1116352408, 1899447441, 3049323471, 3921009573, 961987163,
   1508970993, 2453635748, 2870763221, 3624381080, 310598401,
   607225278, 1426881987, 1925078388, 2162078206, 2614888103,
   3248222580, 3835390401, 4022224774, 264347078, 604807628,
   770255983, 1249150122, 1555081692, 1996064986, 2554220882,
   2821834349, 2952996808, 3210313671, 3336571891, 3584528711,
   113926993, 338241895, 666307205, 773529912, 1294757372,
   1396182291, 1695183700, 1986661051, 2177026350, 2456956037,
   2730485921, 2820302411, 3259730800, 3345764771, 3516065817,
   3600352804, 4094571909, 275423344, 430227734, 506948616,
   659060556, 883997877, 958139571, 1322822218, 1537002063,
   1747873779, 1955562222, 2024104815, 2227730452, 2361852424,
   2428436474, 2756734187, 3204031479, 3329325298]

/-- The eight SHA-256 initial hash words of FIPS 180-4, written in
decimal. -/
def sha256H0 : List ℕ :=
  [1779033703, 3144134277, 1013904242, 2773480762,
   1359893119, 2600822924, 528734635, 1541459225]

/-- Big-endian byte decomposition of width `k`. -/
def toBytesBE (k n : ℕ) : List ℕ :=
  (List.range k).map fun i => (n >>> (8 * (k - 1 - i))) % 256

/-- SHA-256 message padding: append `0x80`, zero bytes up to 56 mod 64, and
the bit length as a 64-bit big-endian integer. -/
def sha256Pad (msg : List ℕ) : List ℕ :=
  msg ++ 0x80 :: List.replicate ((119 - msg.length % 64) % 64) 0 ++
    toBytesBE 8 (8 * msg.length)

/-- Group bytes into big-endian 32-bit words. -/
def bytesToWords : List ℕ → List ℕ
  | b0 :: b1 :: b2 :: b3 :: rest =>
      ((((b0 <<< 8) ||| b1) <<< 8 ||| b2) <<< 8 ||| b3) :: bytesToWords rest
  | _ => []

/-- Group a word list into 16-word message blocks. -/
def words16 : List ℕ → List (List ℕ)
  | w0 :: w1 :: w2 :: w3 :: w4 :: w5 :: w6 :: w7 ::
      w8 :: w9 :: w10 :: w11 :: w12 :: w13 :: w14 :: w15 :: rest =>
      [w0, w1, w2, w3, w4, w5, w6, w7, w8, w9, w10, w11, w12, w13, w14, w15] ::
        words16 rest
  | _ => []

/-- One step of the message-schedule extension: append the next word. -/
def scheduleStep (acc : List ℕ) : List ℕ :=
  let n := acc.length
  let x15 := acc.getD (n - 15) 0
  let x2 := acc.getD (n - 2) 0
  let s0 := (rotr 7 x15) ^^^ (rotr 18 x15) ^^^ (x15 >>> 3)
  let s1 := (rotr 17 x2) ^^^ (rotr 19 x2) ^^^ (x2 >>> 10)
  acc ++ [w32 (acc.getD (n - 16) 0 + s0 + acc.getD (n - 7) 0 + s1)]

/-- SHA-256 compression of one 16-word block into the running hash state. -/
def sha256Compress (H block : List ℕ) : List ℕ :=
  let ws := (List.range 48).foldl (fun acc _ => scheduleStep acc) block
  let final := (List.range 64).foldl (fun st t =>
    match st with
    | [a, b, c, d, e, f, g, h] =>
        let S1 := (rotr 6 e) ^^^ (rotr 11 e) ^^^ (rotr 25 e)
        let ch := (e &&& f) ^^^ ((e ^^^ 0xffffffff) &&& g)
        let temp1 := w32 (h + S1 + ch + sha256K.getD t 0 + ws.getD t 0)
        let S0 := (rotr 2 a) ^^^ (rotr 13 a) ^^^ (rotr 22 a)
        let maj := (a &&& b) ^^^ (a &&& c) ^^^ (b &&& c)
        let temp2 := w32 (S0 + maj)
        [w32 (temp1 + temp2), a, b, c, w32 (d + temp1), e, f, g]
    | other => other) H
  List.zipWith (fun x y => w32 (x + y)) H final

/-- SHA-256 digest of a byte list, as the list of eight 32-bit words. -/
def sha256Words (msg : List ℕ) : List ℕ :=
  (words16 (bytesToWords (sha256Pad msg))).foldl sha256Compress sha256H0

/-- The SHA-256 digest interpreted as a big-endian unsigned integer, the
value of `int(hashlib.sha256(...).hexdigest(), 16)`. -/
def sha256Nat (msg : List ℕ) : ℕ :=
  (sha256Words msg).foldl (fun acc w => acc * 4294967296 + w) 0

/-- UTF-8 encoding of one character, as byte values. -/
def utf8EncodeChar (c : Char) : List ℕ :=
  let n := c.toNat
  if n < 0x80 then [n]
  else if n < 0x800 then
    [0xc0 ||| (n >>> 6), 0x80 ||| (n &&& 0x3f)]
  else if n < 0x10000 then
    [0xe0 ||| (n >>> 12), 0x80 ||| ((n >>> 6) &&& 0x3f), 0x80 ||| (n &&& 0x3f)]
  else
    [0xf0 ||| (n >>> 18), 0x80 ||| ((n >>> 12) &&& 0x3f),
     0x80 ||| ((n >>> 6) &&& 0x3f), 0x80 ||| (n &&& 0x3f)]

/-- UTF-8 encoding of a string, the model of `s.encode("utf-8")`. -/
def utf8Bytes (s : String) : List ℕ :=
  s.data.flatMap utf8EncodeChar

/-- Little-endian decimal digits of a natural number, with explicit fuel so
that the recursion is structural. -/
def decimalDigitsAux : ℕ → ℕ → List ℕ
  | 0, _ => []
  | fuel + 1, n => if n = 0 then [] else n % 10 :: decimalDigitsAux fuel (n / 10)

/-- Decimal rendering of a natural number, the model of `str(n)`. -/
def decimalRepr (n : ℕ) : String :=
  if n = 0 then "0"
  else String.mk ((decimalDigitsAux n n).reverse.map Nat.digitChar)

/-- Left zero-padding to width `w`, the model of `str.zfill(w)` for
non-negative numeric strings. -/
def zfill (w : ℕ) (s : String) : String :=
  String.mk (List.replicate (w - s.length) '0' ++ s.data)

/-- Replacement of the leading run of `'0'` characters by as many `'9'`
characters, the model of the regex substitution on the padded string. -/
def nineLeadingZeros (s : String) : String :=
  String.mk (List.replicate (s.data.takeWhile (fun ch => ch = '0')).length '9' ++
    s.data.dropWhile (fun ch => ch = '0'))

/-- Steps 4 and 5 of the id function: pad the modulo value to 8 digits and
replace leading zeros by nines. -/
def padAndFix (n : ℕ) : String :=
  nineLeadingZeros (zfill 8 (decimalRepr n))

/-- The 8-digit id: SHA-256 of the UTF-8 bytes, taken modulo `10^8`, then
padded and fixed. -/
def create_unique_8digit_id (s : String) : String :=
  padAndFix (sha256Nat (utf8Bytes s) % 10 ^ 8)

theorem decimalDigitsAux_eq :
    ∀ fuel n : ℕ, n ≤ fuel → decimalDigitsAux fuel n = Nat.digits 10 n := by
  intro fuel
  induction fuel with
  | zero =>
      intro n hn
      interval_cases n
      simp [decimalDigitsAux]
  | succ fuel ih =>
      intro n hn
      by_cases h0 : n = 0
      · simp [decimalDigitsAux, h0]
      · rw [decimalDigitsAux, if_neg h0,
          ih (n / 10) (by omega),
          Nat.digits_def' (by norm_num : 1 < 10) (Nat.pos_of_ne_zero h0)]

theorem decimalRepr_length_le {n k : ℕ} (hn : n < 10 ^ k) (hk : 0 < k) :
    (decimalRepr n).length ≤ k := by
  unfold decimalRepr
  by_cases h0 : n = 0
  · simpa [h0] using hk
  · rw [if_neg h0]
    show ((decimalDigitsAux n n).reverse.map Nat.digitChar).length ≤ k
    rw [decimalDigitsAux_eq n n le_rfl, List.length_map, List.length_reverse]
    have h1 : 10 ^ (Nat.digits 10 n).length ≤ 10 * n :=
      Nat.base_pow_length_digits_le 10 n (by norm_num) h0
    have h2 : 10 * n < 10 ^ (k + 1) := by
      calc 10 * n < 10 * 10 ^ k := by omega
        _ = 10 ^ (k + 1) := by ring
    have h3 : (10 : ℕ) ^ (Nat.digits 10 n).length < 10 ^ (k + 1) :=
      lt_of_le_of_lt h1 h2
    have := (Nat.pow_lt_pow_iff_right (by norm_num : 1 < 10)).mp h3
    omega

theorem decimalRepr_digits {n : ℕ} {ch : Char} (h : ch ∈ (decimalRepr n).data) :
    ch.isDigit := by
  unfold decimalRepr at h
  by_cases h0 : n = 0
  · rw [if_pos h0] at h
    have : ch = '0' := by simpa using h
    rw [this]; decide
  · rw [if_neg h0] at h
    have h' : ch ∈ (decimalDigitsAux n n).reverse.map Nat.digitChar := h
    rw [decimalDigitsAux_eq n n le_rfl] at h'
    obtain ⟨d, hd, rfl⟩ := List.mem_map.mp h'
    have hlt : d < 10 := Nat.digits_lt_base (by norm_num) (List.mem_reverse.mp hd)
    interval_cases d <;> decide

theorem padAndFix_length {n : ℕ} (hn : n < 10 ^ 8) :
    (padAndFix n).length = 8 ∧ ∀ ch ∈ (padAndFix n).data, ch.isDigit := by
  have hlen : (decimalRepr n).length ≤ 8 := decimalRepr_length_le hn (by norm_num)
  set s := zfill 8 (decimalRepr n) with hs
  have hslen : s.length = 8 := by
    show (List.replicate (8 - (decimalRepr n).length) '0' ++
      (decimalRepr n).data).length = 8
    rw [List.length_append, List.length_replicate]
    have : (decimalRepr n).length = (decimalRepr n).data.length := rfl
    omega
  have hsdig : ∀ ch ∈ s.data, ch.isDigit := by
    intro ch hch
    rcases List.mem_append.mp hch with hch | hch
    · rw [List.eq_of_mem_replicate hch]; decide
    · exact decimalRepr_digits hch
  constructor
  · show (List.replicate (s.data.takeWhile (fun ch => ch = '0')).length '9' ++
      s.data.dropWhile (fun ch => ch = '0')).length = 8
    rw [List.length_append, List.length_replicate]
    have := congrArg List.length (List.takeWhile_append_dropWhile
      (fun ch => decide (ch = '0')) s.data)
    rw [List.length_append] at this
    have hsl : s.data.length = 8 := hslen
    omega
  · intro ch hch
    rcases List.mem_append.mp hch with hch | hch
    · rw [List.eq_of_mem_replicate hch]; decide
    · exact hsdig ch ((List.dropWhile_sublist _).subset hch)

/-- C5.  The 8-digit id is the SHA-256 hash of the UTF-8 bytes reduced
modulo `10^8`, zero-padded to 8 digits with the leading run of zeros turned
into nines; it is always an 8-character numeric string, a raw modulo value
of 0 yields "99999999" and the padded value "00012345" (modulo value 12345)
yields "99912345". -/
theorem create_unique_8digit_id_spec (s : String) :
    create_unique_8digit_id s = padAndFix (sha256Nat (utf8Bytes s) % 10 ^ 8) ∧
      (create_unique_8digit_id s).length = 8 ∧
      (∀ ch ∈ (create_unique_8digit_id s).data, ch.isDigit) ∧
      padAndFix 0 = "99999999" ∧
      zfill 8 (decimalRepr 12345) = "00012345" ∧ padAndFix 12345 = "99912345" := by
  have hmod : sha256Nat (utf8Bytes s) % 10 ^ 8 < 10 ^ 8 :=
    Nat.mod_lt _ (by norm_num)
  obtain ⟨h1, h2⟩ := padAndFix_length hmod
  exact ⟨rfl, h1, h2, by decide, by decide, by decide⟩

set_option maxRecDepth 100000 in
/-- Witness for C5 at a concrete combination string: evaluating the id of
"123-456" yields an 8-character numeric string. -/
theorem create_unique_8digit_id_spec_witness :
    (create_unique_8digit_id "123-456").length = 8 ∧
      ('5' : Char).isDigit ∧ padAndFix 0 = "99999999" :=
  ⟨(create_unique_8digit_id_spec "123-456").2.1,
    (create_unique_8digit_id_spec "123-456").2.2.1 '5'
      (by with_unfolding_all exact of_decide_eq_true rfl),
    (create_unique_8digit_id_spec "123-456").2.2.2.1⟩

/-! ## Mat_combination

`get_mat_combination` embeds the source function: iterate over the items of
antecedent ∪ consequent, collect the reference codes of the items present in
the item map, then join the sorted set of codes with `-`.  Rendered rule item
sets are modelled as duplicate-free lists; the set union of antecedent and
consequent is `dropDupFirst (ants ++ cons)`. -/

/-- The reference-code combination of a rule: codes of the items of
antecedent ∪ consequent found in the map, as a sorted, de-duplicated,
dash-joined string. -/
def get_mat_combination (lookup : String → Option String)
    (ants cons : List String) : String :=
  let items := dropDupFirst (ants ++ cons)
  let codes := items.filterMap lookup
  String.intercalate "-" (sortList (dropDupFirst codes))

/-- The claim's description of Mat_combination: look up each item of
antecedent ∪ consequent, silently skipping items absent from the map, sort
the resulting codes lexicographically, de-duplicate, and join with `-`. -/
def matCombinationSpec (lookup : String → Option String)
    (ants cons : List String) : String :=
  String.intercalate "-" (dropDupFirst (sortList ((ants ++ cons).filterMap lookup)))

/-- Sorted de-duplication only depends on membership. -/
theorem sortList_dropDupFirst_ext {α : Type} [DecidableEq α] [LinearOrder α]
    {l₁ l₂ : List α}
    (h : ∀ x, x ∈ l₁ ↔ x ∈ l₂) :
    sortList (dropDupFirst l₁) = sortList (dropDupFirst l₂) := by
  apply sorted_nodup_ext (sorted_sortList _) (sorted_sortList _)
    (nodup_sortList (nodup_dropDupFirst _)) (nodup_sortList (nodup_dropDupFirst _))
  intro x
  rw [mem_sortList, mem_sortList, mem_dropDupFirst, mem_dropDupFirst]
  exact h x

theorem get_mat_combination_eq_spec (lookup : String → Option String)
    (ants cons : List String) :
    get_mat_combination lookup ants cons = matCombinationSpec lookup ants cons := by
  show String.intercalate "-"
      (sortList (dropDupFirst ((dropDupFirst (ants ++ cons)).filterMap lookup))) =
    String.intercalate "-" (dropDupFirst (sortList ((ants ++ cons).filterMap lookup)))
  congr 1
  apply sorted_nodup_ext (sorted_sortList _)
    (((sorted_sortList ((ants ++ cons).filterMap lookup)).sublist
      (sublist_dropDupFirstAux _ _)))
    (nodup_sortList (nodup_dropDupFirst _)) (nodup_dropDupFirst _)
  intro x
  simp only [mem_sortList, mem_dropDupFirst, mem_dropDupFirstAux, List.not_mem_nil,
    not_false_iff, and_true, List.mem_filterMap]

theorem get_mat_combination_eq_empty (lookup : String → Option String)
    (ants cons : List String) (h : ∀ i ∈ ants ++ cons, lookup i = none) :
    get_mat_combination lookup ants cons = "" := by
  show String.intercalate "-"
      (sortList (dropDupFirst ((dropDupFirst (ants ++ cons)).filterMap lookup))) = ""
  have hcodes : (dropDupFirst (ants ++ cons)).filterMap lookup = [] := by
    rw [List.filterMap_eq_nil_iff]
    intro i hi
    exact h i (mem_dropDupFirst.mp hi)
  rw [hcodes]
  rfl

/-- C6.  Mat_combination is obtained by looking up each item of
antecedent ∪ consequent in the item reference map, silently skipping items
absent from the map, sorting the resulting codes lexicographically,
de-duplicating them and joining with `-`; it is the empty string when no
item of the rule maps to a code. -/
theorem get_mat_combination_spec (lookup : String → Option String)
    (ants cons : List String) :
    get_mat_combination lookup ants cons = matCombinationSpec lookup ants cons ∧
      ((∀ i ∈ ants ++ cons, lookup i = none) →
        get_mat_combination lookup ants cons = "") :=
  ⟨get_mat_combination_eq_spec lookup ants cons,
    get_mat_combination_eq_empty lookup ants cons⟩

/-- Witness for C6: a two-item rule with one mapped and one unmapped item,
and a rule over an unmapped vocabulary yielding the empty combination. -/
theorem get_mat_combination_spec_witness :
    get_mat_combination (fun i => if i = "a" then some "c9" else none) ["a"] ["b"] =
        matCombinationSpec (fun i => if i = "a" then some "c9" else none) ["a"] ["b"] ∧
      get_mat_combination (fun _ => none) ["a"] ["b"] = "" :=
  ⟨(get_mat_combination_spec (fun i => if i = "a" then some "c9" else none)
      ["a"] ["b"]).1,
    (get_mat_combination_spec (fun _ => none) ["a"] ["b"]).2
      (fun _ _ => rfl)⟩

/-! ## The whitespace mismatch between map keys and rule items -/

theorem dictLookup_ne_none {m : List (String × String)} {k v : String}
    (h : (k, v) ∈ m) : dictLookup m k ≠ none := by
  induction m with
  | nil => exact absurd h (List.not_mem_nil _)
  | cons p ps ih =>
      rw [dictLookup]
      rcases hps : dictLookup ps k with _ | w
      · rcases List.mem_cons.mp h with rfl | h
        · simp
        · exact absurd hps (ih h)
      · simp

theorem mem_itemCodePairs {rows : List RawRecord} {k v : String} :
    (k, v) ∈ itemCodePairs rows ↔ ∃ r ∈ rows, r.item = some k ∧ r.code = v := by
  unfold itemCodePairs
  rw [List.mem_filterMap]
  constructor
  · rintro ⟨r, hr, hmap⟩
    rcases hi : r.item with _ | i
    · rw [hi] at hmap; exact absurd hmap (by simp)
    · rw [hi] at hmap
      simp only [Option.map_some', Option.some.injEq, Prod.mk.injEq] at hmap
      exact ⟨r, hr, by rw [hi, hmap.1], hmap.2⟩
  · rintro ⟨r, hr, hk, hv⟩
    exact ⟨r, hr, by rw [hk, hv]; rfl⟩

/-- Counterexample to C10 as stated: when the trimmed variant of a
whitespace-carrying item name also occurs as a raw item name, the lookup of
the trimmed rule item does not miss, and a reference code does appear in
Mat_combination. -/
theorem strip_mismatch_counterexample :
    strip "A " ≠ "A " ∧
      item_bestell_map [⟨1, some "A ", "c1"⟩, ⟨2, some "A", "c2"⟩]
        (strip "A ") ≠ none ∧
      get_mat_combination
        (item_bestell_map [⟨1, some "A ", "c1"⟩, ⟨2, some "A", "c2"⟩])
        [strip "A "] [] = "c2" := by
  decide

/-- C10 amended.  For a record whose item name `s` carries leading or
trailing whitespace, the map is keyed on the untrimmed name (the lookup of
the raw name succeeds) while the cleaned transaction carries the trimmed
name; provided the trimmed name does not itself occur as an item name in
the raw data, the lookup of the trimmed rule item misses and the item
contributes no code to Mat_combination. -/
theorem strip_mismatch_omits_code (rows : List RawRecord) (s : String)
    (r : RawRecord) (hr : r ∈ rows) (hitem : r.item = some s)
    (hnotrim : ∀ r' ∈ rows, r'.item ≠ some (strip s)) :
    item_bestell_map rows s ≠ none ∧
      strip s ∈ cleanGroup rows r.tid ∧
      item_bestell_map rows (strip s) = none ∧
      ∀ ants cons : List String,
        get_mat_combination (item_bestell_map rows) (strip s :: ants) cons =
          get_mat_combination (item_bestell_map rows) ants cons := by
  have hmiss : item_bestell_map rows (strip s) = none := by
    rcases hlook : item_bestell_map rows (strip s) with _ | v
    · rfl
    · exfalso
      have hmem := dictLookup_mem hlook
      rw [mem_dropDupFirst] at hmem
      obtain ⟨r', hr', hk, _⟩ := mem_itemCodePairs.mp hmem
      exact hnotrim r' hr' hk
  refine ⟨?_, ?_, hmiss, ?_⟩
  · unfold item_bestell_map
    apply dictLookup_ne_none (v := r.code)
    rw [mem_dropDupFirst]
    exact mem_itemCodePairs.mpr ⟨r, hr, hitem, rfl⟩
  · unfold cleanGroup
    apply List.mem_filterMap.mpr
    refine ⟨r, List.mem_filter.mpr ⟨hr, by simp⟩, ?_⟩
    rw [hitem, Option.map_some']
  · intro ants cons
    show String.intercalate "-"
        (sortList (dropDupFirst ((dropDupFirst ((strip s :: ants) ++ cons)).filterMap
          (item_bestell_map rows)))) =
      String.intercalate "-"
        (sortList (dropDupFirst ((dropDupFirst (ants ++ cons)).filterMap
          (item_bestell_map rows))))
    congr 1
    apply sortList_dropDupFirst_ext
    intro c
    rw [List.mem_filterMap, List.mem_filterMap]
    constructor
    · rintro ⟨i, hi, hli⟩
      rw [mem_dropDupFirst, List.cons_append, List.mem_cons] at hi
      rcases hi with rfl | hi
      · rw [hmiss] at hli; exact absurd hli (by simp)
      · exact ⟨i, mem_dropDupFirst.mpr hi, hli⟩
    · rintro ⟨i, hi, hli⟩
      rw [mem_dropDupFirst] at hi
      exact ⟨i, mem_dropDupFirst.mpr (by
        rw [List.cons_append, List.mem_cons]; exact Or.inr hi), hli⟩

/-- Witness for the amended C10: an input whose only record has item
name " A". -/
theorem strip_mismatch_omits_code_witness :
    item_bestell_map [⟨1, some " A", "c1"⟩] " A" ≠ none ∧
      strip " A" ∈ cleanGroup [⟨1, some " A", "c1"⟩]
        (⟨1, some " A", "c1"⟩ : RawRecord).tid ∧
      item_bestell_map [⟨1, some " A", "c1"⟩] (strip " A") = none ∧
      get_mat_combination (item_bestell_map [⟨1, some " A", "c1"⟩])
          (strip " A" :: ["B"]) ["C"] =
        get_mat_combination (item_bestell_map [⟨1, some " A", "c1"⟩]) ["B"] ["C"] := by
  have h := strip_mismatch_omits_code [⟨1, some " A", "c1"⟩] " A"
    ⟨1, some " A", "c1"⟩ (List.mem_singleton_self _) rfl
    (by intro r' hr'; rw [List.mem_singleton] at hr'; subst hr'; decide)
  exact ⟨h.1, h.2.1, h.2.2.1, h.2.2.2 ["B"] ["C"]⟩

/-! ## The exported rule table

`rules_export` selects, from the annotated rule table, the listed columns in
the listed order, one row per retained rule in generation order.  A cell is a
string, a rational or a count; a row is the list of selected cells. -/

/-- A table cell. -/
inductive Cell where
  | str (v : String)
  | rat (v : ℚ)
  | nat (v : ℕ)
deriving DecidableEq

/-- One annotated rule, with the metric columns produced by the rule
generator and the columns added by the annotator.  `conviction` is infinite
for confidence-1 rules; the export claim does not depend on the metric
values, so all metrics are carried as rationals. -/
structure AnnotatedRule where
  antecedents : String
  consequents : String
  antecedentSupport : ℚ
  consequentSupport : ℚ
  support : ℚ
  confidence : ℚ
  lift : ℚ
  leverage : ℚ
  conviction : ℚ
  zhangsMetric : ℚ
  combination_count : ℕ
  matCombination : String
  matCombinationId : String
  differentItems : ℕ
deriving DecidableEq

/-- Column lookup on one annotated rule, by column name. -/
def cellOf (r : AnnotatedRule) (col : String) : Option Cell :=
  if col = "antecedents" then some (Cell.str r.antecedents)
  else if col = "consequents" then some (Cell.str r.consequents)
  else if col = "antecedent support" then some (Cell.rat r.antecedentSupport)
  else if col = "consequent support" then some (Cell.rat r.consequentSupport)
  else if col = "support" then some (Cell.rat r.support)
  else if col = "confidence" then some (Cell.rat r.confidence)
  else if col = "lift" then some (Cell.rat r.lift)
  else if col = "leverage" then some (Cell.rat r.leverage)
  else if col = "conviction" then some (Cell.rat r.conviction)
  else if col = "zhangs_metric" then some (Cell.rat r.zhangsMetric)
  else if col = "combination_count" then some (Cell.nat r.combination_count)
  else if col = "Mat_combination" then some (Cell.str r.matCombination)
  else if col = "Mat_combination_id" then some (Cell.str r.matCombinationId)
  else if col = "different items" then some (Cell.nat r.differentItems)
  else none

/-- The column list of the export, exactly as selected in the source. -/
def exportColumns : List String :=
  ["antecedents", "consequents", "support", "confidence", "lift", "leverage",
   "conviction", "zhangs_metric", "combination_count", "Mat_combination",
   "Mat_combination_id", "different items"]

/-- The exported table: one row of selected cells per retained rule, in
rule order. -/
def rules_export (rules : List AnnotatedRule) : List (List (Option Cell)) :=
  rules.map fun r => exportColumns.map (cellOf r)

/-- Counterexample to C7 as stated: the final column of the export is named
"different items" (with a space), not "different_items". -/
theorem exportColumns_ne_claimed :
    exportColumns ≠
      ["antecedents", "consequents", "support", "confidence", "lift", "leverage",
       "conviction", "zhangs_metric", "combination_count", "Mat_combination",
       "Mat_combination_id", "different_items"] ∧
      exportColumns.getLast? = some "different items" := by
  decide

/-- C7 amended.  The export has exactly the columns antecedents,
consequents, support, confidence, lift, leverage, conviction, zhangs_metric,
combination_count, Mat_combination, Mat_combination_id, "different items"
(the last with a space in its name), in that order, with one row per
retained rule in the order rules were generated. -/
theorem rules_export_spec (rules : List AnnotatedRule) :
    exportColumns =
      ["antecedents", "consequents", "support", "confidence", "lift", "leverage",
       "conviction", "zhangs_metric", "combination_count", "Mat_combination",
       "Mat_combination_id", "different items"] ∧
      (rules_export rules).length = rules.length ∧
      ∀ i : ℕ, (rules_export rules)[i]? =
        (rules[i]?).map fun r => exportColumns.map (cellOf r) := by
  refine ⟨rfl, List.length_map _ _, fun i => ?_⟩
  rw [rules_export, List.getElem?_map]

/-! ## The rule graph and node sizes

The graph builder adds one edge per rule between the rendered antecedent and
consequent strings; node sizes aggregate `combination_count` over the rules
in which the node's label occurs.  The source tests occurrence with python's
`in` operator on strings, which is a substring test. -/

/-- One rendered rule row as used by the graph builder. -/
structure RenderedRule where
  ants : String
  cons : String
  conf : ℚ
  count : ℕ
deriving DecidableEq

/-- Whether `n` is a prefix list of `h`. -/
def listStarts {α : Type} [DecidableEq α] : List α → List α → Bool
  | [], _ => true
  | _ :: _, [] => false
  | a :: as, b :: bs => a = b && listStarts as bs

/-- Whether `n` occurs as a contiguous sublist of `h`. -/
def listSub {α : Type} [DecidableEq α] (n : List α) : List α → Bool
  | [] => n.isEmpty
  | b :: bs => listStarts n (b :: bs) || listSub n bs

/-- Python's `x in y` on strings: the substring test. -/
def strContains (needle hay : String) : Bool :=
  listSub needle.data hay.data

/-- The node labels of the rule graph: every rendered antecedent or
consequent string, first occurrence order. -/
def graphNodes (rules : List RenderedRule) : List String :=
  dropDupFirst (rules.flatMap fun r => [r.ants, r.cons])

/-- The aggregate of one node: the sum of `combination_count` over the rules
whose rendered antecedent or consequent string contains the label as a
substring. -/
def nodeTotal (rules : List RenderedRule) (node : String) : ℕ :=
  (rules.map fun r =>
    if strContains node r.ants || strContains node r.cons then r.count else 0).sum

/-- The pre-normalization node-size table. -/
def node_sizes (rules : List RenderedRule) : List (String × ℕ) :=
  (graphNodes rules).map fun nd => (nd, nodeTotal rules nd)

/-- Counterexample to C8 as stated: with rules A→B (count 1) and
"A, C"→B (count 10), the node "A" aggregates 11 because "A" occurs as a
substring of the antecedent "A, C", while the sum over rules whose
antecedent or consequent string equals "A" is only 1. -/
theorem node_sizes_substring_counterexample :
    ("A", 11) ∈ node_sizes [⟨"A", "B", 1 / 2, 1⟩, ⟨"A, C", "B", 1 / 2, 10⟩] ∧
      (([⟨"A", "B", 1 / 2, 1⟩, ⟨"A, C", "B", 1 / 2, 10⟩] :
          List RenderedRule).filter (fun r => r.ants = "A" || r.cons = "A")).foldr
        (fun r acc => r.count + acc) 0 = 1 ∧
      (11 : ℕ) ≠ 1 := by
  with_unfolding_all exact of_decide_eq_true rfl

theorem sum_ite_eq_sum_filter {α : Type} (l : List α) (p : α → Bool) (f : α → ℕ) :
    (l.map fun x => if p x then f x else 0).sum = ((l.filter p).map f).sum := by
  induction l with
  | nil => rfl
  | cons x xs ih =>
      by_cases hx : p x
      · simp [hx, ih]
      · simp [hx, ih]

/-- C8 amended.  Each node's pre-normalization aggregate equals the sum of
`combination_count` over exactly those rules whose rendered antecedent or
consequent string contains the node's label as a substring (python's `in`
on strings), not only those equal to the label. -/
theorem node_sizes_substring_sum (rules : List RenderedRule)
    (p : String × ℕ) (hp : p ∈ node_sizes rules) :
    p.2 = ((rules.filter fun r =>
      strContains p.1 r.ants || strContains p.1 r.cons).map
        (fun r => r.count)).sum := by
  obtain ⟨nd, _, rfl⟩ := List.mem_map.mp hp
  exact sum_ite_eq_sum_filter rules _ _

/-- Witness for the amended C8 at the counterexample rule table. -/
theorem node_sizes_substring_sum_witness :
    (("A", 11) : String × ℕ).2 =
      ((([⟨"A", "B", 1 / 2, 1⟩, ⟨"A, C", "B", 1 / 2, 10⟩] :
          List RenderedRule).filter fun r =>
        strContains "A" r.ants || strContains "A" r.cons).map
          (fun r => r.count)).sum :=
  node_sizes_substring_sum [⟨"A", "B", 1 / 2, 1⟩, ⟨"A, C", "B", 1 / 2, 10⟩]
    ("A", 11) (by with_unfolding_all exact of_decide_eq_true rfl)

/-! ## Node-size normalization -/

/-- The minimum aggregate count (python `min(counts)`), 0 for an empty
table. -/
def mnOf (sizes : List (String × ℕ)) : ℕ :=
  match sizes.map fun p => p.2 with
  | [] => 0
  | c :: cs => cs.foldr min c

/-- The maximum aggregate count (python `max(counts)`), 0 for an empty
table. -/
def mxOf (sizes : List (String × ℕ)) : ℕ :=
  match sizes.map fun p => p.2 with
  | [] => 0
  | c :: cs => cs.foldr max c

/-- Normalization of the node-size table onto `[minSize, maxSize]`: the
midpoint for all nodes when all aggregates are equal, otherwise the linear
map sending the minimum aggregate to `minSize` and the maximum to
`maxSize`. -/
def scaled_sizes (minSize maxSize : ℚ) (sizes : List (String × ℕ)) :
    List (String × ℚ) :=
  match sizes.map fun p => p.2 with
  | [] => sizes.map fun p => (p.1, minSize)
  | c :: cs =>
      let mn := cs.foldr min c
      let mx := cs.foldr max c
      if mx = mn then sizes.map fun p => (p.1, (minSize + maxSize) / 2)
      else sizes.map fun p =>
        (p.1, minSize + ((p.2 : ℚ) - (mn : ℚ)) / ((mx : ℚ) - (mn : ℚ)) *
          (maxSize - minSize))

theorem foldrMin_le {cs : List ℕ} {c x : ℕ} (hx : x ∈ c :: cs) :
    cs.foldr min c ≤ x := by
  induction cs generalizing c with
  | nil =>
      rw [List.mem_singleton] at hx
      exact le_of_eq (by rw [hx]; rfl)
  | cons b bs ih =>
      show min b (bs.foldr min c) ≤ x
      rcases List.mem_cons.mp hx with rfl | hx
      · exact le_trans (min_le_right _ _) (ih (List.mem_cons_self _ _))
      · rcases List.mem_cons.mp hx with rfl | hx
        · exact min_le_left _ _
        · exact le_trans (min_le_right _ _) (ih (List.mem_cons_of_mem _ hx))

theorem le_foldrMax {cs : List ℕ} {c x : ℕ} (hx : x ∈ c :: cs) :
    x ≤ cs.foldr max c := by
  induction cs generalizing c with
  | nil =>
      rw [List.mem_singleton] at hx
      exact le_of_eq (by rw [hx]; rfl)
  | cons b bs ih =>
      show x ≤ max b (bs.foldr max c)
      rcases List.mem_cons.mp hx with rfl | hx
      · exact le_trans (ih (List.mem_cons_self _ _)) (le_max_right _ _)
      · rcases List.mem_cons.mp hx with rfl | hx
        · exact le_max_left _ _
        · exact le_trans (ih (List.mem_cons_of_mem _ hx)) (le_max_right _ _)

theorem foldrMin_eq_of_all_eq {cs : List ℕ} {c : ℕ}
    (h : ∀ x ∈ cs, x = c) : cs.foldr min c = c := by
  induction cs with
  | nil => rfl
  | cons b bs ih =>
      show min b (bs.foldr min c) = c
      rw [h b (List.mem_cons_self _ _),
        ih fun x hx => h x (List.mem_cons_of_mem _ hx), min_self]

theorem foldrMax_eq_of_all_eq {cs : List ℕ} {c : ℕ}
    (h : ∀ x ∈ cs, x = c) : cs.foldr max c = c := by
  induction cs with
  | nil => rfl
  | cons b bs ih =>
      show max b (bs.foldr max c) = c
      rw [h b (List.mem_cons_self _ _),
        ih fun x hx => h x (List.mem_cons_of_mem _ hx), max_self]

/-- C9.  Node-size normalization maps aggregates linearly onto
`[minSize, maxSize]`, assigns every node the midpoint `(minSize + maxSize)/2`
whenever all aggregates are equal (including the single-node case) instead
of dividing by `max - min`, and in the branch that does divide the divisor
`max - min` is non-zero. -/
theorem scaled_sizes_spec (minSize maxSize : ℚ) (sizes : List (String × ℕ)) :
    ((∀ x ∈ sizes.map (fun p => p.2), ∀ y ∈ sizes.map (fun p => p.2), x = y) →
      scaled_sizes minSize maxSize sizes =
        sizes.map fun p => (p.1, (minSize + maxSize) / 2)) ∧
      ((¬ ∀ x ∈ sizes.map (fun p => p.2), ∀ y ∈ sizes.map (fun p => p.2), x = y) →
        ((mxOf sizes : ℚ) - (mnOf sizes : ℚ) ≠ 0 ∧
          scaled_sizes minSize maxSize sizes =
            sizes.map fun p =>
              (p.1, minSize + ((p.2 : ℚ) - (mnOf sizes : ℚ)) /
                ((mxOf sizes : ℚ) - (mnOf sizes : ℚ)) * (maxSize - minSize)))) ∧
      (minSize ≤ maxSize →
        ∀ p ∈ scaled_sizes minSize maxSize sizes,
          minSize ≤ p.2 ∧ p.2 ≤ maxSize) := by
  rcases hm : sizes.map fun p => p.2 with _ | ⟨c, cs⟩
  · have hsz : sizes = [] := List.map_eq_nil_iff.mp hm
    subst hsz
    refine ⟨fun _ => ?_, fun hne => absurd (by simp) hne, fun _ p hp => ?_⟩
    · rfl
    · exact absurd hp (by simp [scaled_sizes])
  · have hmn : mnOf sizes = cs.foldr min c := by rw [mnOf, hm]
    have hmx : mxOf sizes = cs.foldr max c := by rw [mxOf, hm]
    have hsc : scaled_sizes minSize maxSize sizes =
        if cs.foldr max c = cs.foldr min c then
          sizes.map fun p => (p.1, (minSize + maxSize) / 2)
        else sizes.map fun p =>
          (p.1, minSize + ((p.2 : ℚ) - ((cs.foldr min c : ℕ) : ℚ)) /
            (((cs.foldr max c : ℕ) : ℚ) - ((cs.foldr min c : ℕ) : ℚ)) *
              (maxSize - minSize)) := by
      rw [scaled_sizes, hm]
    have hmemc : ∀ q ∈ sizes, q.2 ∈ c :: cs := by
      intro q hq
      rw [← hm]
      exact List.mem_map_of_mem _ hq
    refine ⟨?_, ?_, ?_⟩
    · intro hall
      have hc : c ∈ sizes.map fun p => p.2 := by rw [hm]; exact List.mem_cons_self _ _
      have hall' : ∀ x ∈ cs, x = c := by
        intro x hx
        exact hall x (by rw [hm]; exact List.mem_cons_of_mem _ hx) c hc
      rw [hsc, if_pos (by rw [foldrMin_eq_of_all_eq hall', foldrMax_eq_of_all_eq hall'])]
    · intro hne
      have hmxmn : cs.foldr max c ≠ cs.foldr min c := by
        intro heq
        apply hne
        intro x hx y hy
        rw [hm] at hx hy
        have h1 := le_antisymm (le_foldrMax hx) (heq ▸ foldrMin_le hx)
        have h2 := le_antisymm (le_foldrMax hy) (heq ▸ foldrMin_le hy)
        rw [h1, h2]
      have hlt : cs.foldr min c < cs.foldr max c := by
        have hle : cs.foldr min c ≤ cs.foldr max c :=
          le_trans (foldrMin_le (List.mem_cons_self c cs))
            (le_foldrMax (List.mem_cons_self c cs))
        omega
      constructor
      · rw [hmn, hmx]
        have hltq : ((cs.foldr min c : ℕ) : ℚ) < ((cs.foldr max c : ℕ) : ℚ) := by
          exact_mod_cast hlt
        intro h0
        have : ((cs.foldr max c : ℕ) : ℚ) = ((cs.foldr min c : ℕ) : ℚ) := by linarith
        exact hmxmn (by exact_mod_cast this)
      · rw [hsc, if_neg hmxmn, hmn, hmx]
    · intro hmM p hp
      rw [hsc] at hp
      by_cases heq : cs.foldr max c = cs.foldr min c
      · rw [if_pos heq] at hp
        obtain ⟨q, _, rfl⟩ := List.mem_map.mp hp
        constructor <;> simp only <;> linarith
      · rw [if_neg heq] at hp
        obtain ⟨q, hq, rfl⟩ := List.mem_map.mp hp
        have hqmem := hmemc q hq
        have h1 : cs.foldr min c ≤ q.2 := foldrMin_le hqmem
        have h2 : q.2 ≤ cs.foldr max c := le_foldrMax hqmem
        have hlt : cs.foldr min c < cs.foldr max c := by
          have hle : cs.foldr min c ≤ cs.foldr max c :=
            le_trans (foldrMin_le (List.mem_cons_self c cs))
              (le_foldrMax (List.mem_cons_self c cs))
          omega
        have h1' : ((cs.foldr min c : ℕ) : ℚ) ≤ (q.2 : ℚ) := by exact_mod_cast h1
        have h2' : (q.2 : ℚ) ≤ ((cs.foldr max c : ℕ) : ℚ) := by exact_mod_cast h2
        have hlt' : ((cs.foldr min c : ℕ) : ℚ) < ((cs.foldr max c : ℕ) : ℚ) := by
          exact_mod_cast hlt
        set t : ℚ := ((q.2 : ℚ) - ((cs.foldr min c : ℕ) : ℚ)) /
          (((cs.foldr max c : ℕ) : ℚ) - ((cs.foldr min c : ℕ) : ℚ)) with ht
        have ht0 : 0 ≤ t := div_nonneg (by linarith) (by linarith)
        have ht1 : t ≤ 1 := by
          rw [ht, div_le_one (by linarith)]
          linarith
        have hb1 : 0 ≤ t * (maxSize - minSize) :=
          mul_nonneg ht0 (by linarith)
        have hb2 : t * (maxSize - minSize) ≤ maxSize - minSize := by
          calc t * (maxSize - minSize) ≤ 1 * (maxSize - minSize) :=
            mul_le_mul_of_nonneg_right ht1 (by linarith)
          _ = maxSize - minSize := one_mul _
        constructor <;> simp only <;> linarith

/-- Witness for C9 at the spec's example: two nodes with equal aggregates
both receive the midpoint size 1650 of the default range [300, 3000]. -/
theorem scaled_sizes_spec_witness :
    scaled_sizes 300 3000 [("X", 10), ("Y", 10)] =
      [("X", 10), ("Y", 10)].map fun p => (p.1, ((300 : ℚ) + 3000) / 2) :=
  (scaled_sizes_spec 300 3000 [("X", 10), ("Y", 10)]).1
    (by with_unfolding_all exact of_decide_eq_true rfl)

end AssocRules
